import Mathlib

/-!
Verification of the alpha-beta search engine in `src/models/minimax.py`
(class `MiniMax`). The rules engine (python-chess `Board`/`Move`) is an
external collaborator; it is embedded as an abstract `Game` interface
exposing exactly the surface consumed by the engine (legal moves, push,
canonical key, side to move, capture/en-passant tests, piece lookup).
Scores are Python floats used only through comparisons, `min`/`max` and
the sentinels `-math.inf`/`math.inf`; they are embedded as an ordered
type with two infinities around the integers.
-/

namespace ChessGamePy

/-! ### Scores: `-math.inf`, finite values, `math.inf` -/

inductive Score where
  | ninf : Score
  | fin : Int → Score
  | pinf : Score
deriving DecidableEq, Repr

namespace Score

/-- Boolean `≤` on scores, mirroring IEEE comparisons on the values the
engine manipulates (finite material sums and the two infinities). -/
def ble : Score → Score → Bool
  | .ninf, _ => true
  | .fin _, .ninf => false
  | .fin a, .fin b => decide (a ≤ b)
  | .fin _, .pinf => true
  | .pinf, .pinf => true
  | .pinf, _ => false

instance : LE Score := ⟨fun a b => ble a b = true⟩
instance : LT Score := ⟨fun a b => ble b a = false⟩

theorem le_def (a b : Score) : (a ≤ b) = (ble a b = true) := rfl

theorem lt_def (a b : Score) : (a < b) = (ble b a = false) := rfl

instance : LinearOrder Score where
  le_refl a := by cases a <;> simp [le_def, ble]
  le_trans a b c := by
    cases a <;> cases b <;> cases c <;> simp [le_def, ble] <;> omega
  le_antisymm a b := by
    cases a <;> cases b <;> simp [le_def, ble] <;> omega
  le_total a b := by
    cases a <;> cases b <;> simp [le_def, ble] <;> omega
  lt_iff_le_not_le a b := by
    cases a <;> cases b <;> simp [le_def, lt_def, ble] <;> omega
  decidableLE a b := inferInstanceAs (Decidable (ble a b = true))
  decidableLT a b := inferInstanceAs (Decidable (ble b a = false))

instance decLE (a b : Score) : Decidable (a ≤ b) :=
  inferInstanceAs (Decidable (ble a b = true))

instance decLT (a b : Score) : Decidable (a < b) :=
  inferInstanceAs (Decidable (ble b a = false))

end Score

/-! ### The rules-engine interface consumed by the search (spec §6) -/

/-- A piece as exposed by `chess.Board.piece_at` / `piece_map`: a piece
kind (`chess.PAWN = 1` … `chess.KING = 6`) and a color (`True` = white). -/
structure Piece where
  pieceType : Nat
  color : Bool
deriving DecidableEq, Repr

/-- The surface of the external rules engine used by `MiniMax`. -/
structure Game where
  Pos : Type
  Move : Type
  decEqMove : DecidableEq Move
  legalMoves : Pos → List Move
  apply : Pos → Move → Pos
  fen : Pos → Nat
  turn : Pos → Bool
  is_capture : Pos → Move → Bool
  is_en_passant : Pos → Move → Bool
  piece_at : Pos → Int → Option Piece
  to_square : Move → Int
  from_square : Move → Int
  piece_map : Pos → List Piece

instance (G : Game) : DecidableEq G.Move := G.decEqMove

/-- A `chess.Board` handle: an initial position plus the stack of moves
pushed onto it (`board.push` appends, `board.pop` removes the last). -/
structure Board (G : Game) where
  init : G.Pos
  stack : List G.Move

namespace Board

variable {G : Game}

/-- The current position of the board (the net effect of the pushes). -/
def cur (b : Board G) : G.Pos := b.stack.foldl G.apply b.init

/-- `board.push(move)`. -/
def push (b : Board G) (m : G.Move) : Board G := ⟨b.init, b.stack ++ [m]⟩

/-- `board.pop()`. -/
def pop (b : Board G) : Board G := ⟨b.init, b.stack.dropLast⟩

end Board

/-! ### The engine state: transposition table and killer table -/

/-- Python's `Optional[chess.Move]` distinguishes `None` from the real
object `chess.Move.null()`; the transposition table stores the latter
when no best move was found (`best_move or chess.Move.null()`). -/
inductive PyMove (G : Game) where
  | real : G.Move → PyMove G
  | null : PyMove G

instance (G : Game) : DecidableEq (PyMove G) := fun a b =>
  match a, b with
  | .real m, .real m' =>
    match G.decEqMove m m' with
    | isTrue h => isTrue (by rw [h])
    | isFalse h => isFalse (by intro hc; cases hc; exact h rfl)
  | .real _, .null => isFalse (by intro hc; cases hc)
  | .null, .real _ => isFalse (by intro hc; cases hc)
  | .null, .null => isTrue rfl

/-- A transposition-table entry: `(score, best_move, depth_searched, flag)`
with `flag`: `0 = EXACT`, `-1 = LOWERBOUND`, `+1 = UPPERBOUND`. -/
structure TTEntry (G : Game) where
  score : Score
  move : PyMove G
  depthSearched : Nat
  flag : Int
deriving DecidableEq

/-- `self.tt` as an association list; insertion shadows older entries,
modelling dict overwrite. -/
def ttGet {G : Game} (tt : List (Nat × TTEntry G)) (k : Nat) : Option (TTEntry G) :=
  (tt.find? (fun kv => kv.1 == k)).map (·.2)

def ttSet {G : Game} (tt : List (Nat × TTEntry G)) (k : Nat) (e : TTEntry G) :
    List (Nat × TTEntry G) := (k, e) :: tt

/-- `self.killers` (`dict[int, chess.Move]`) as an association list. -/
def killersGet {G : Game} (ks : List (Nat × G.Move)) (d : Nat) : Option G.Move :=
  (ks.find? (fun kv => kv.1 == d)).map (·.2)

def killersSet {G : Game} (ks : List (Nat × G.Move)) (d : Nat) (m : G.Move) :
    List (Nat × G.Move) := (d, m) :: ks

/-- The mutable state of one `MiniMax` instance. -/
structure EngineState (G : Game) where
  tt : List (Nat × TTEntry G)
  killers : List (Nat × G.Move)

/-- The state built by `MiniMax.__init__`: empty tables. -/
def EngineState.fresh (G : Game) : EngineState G := ⟨[], []⟩

/-! ### Evaluation and move ordering -/

/-- `PIECE_VALUES` with the `.get(_, 0)` default (the king contributes 0). -/
def PIECE_VALUES (t : Nat) : Int :=
  if t = 1 then 5 else if t = 2 then 30 else if t = 3 then 45
  else if t = 4 then 60 else if t = 5 then 90 else 0

/-- `MiniMax.__evaluate_position`. -/
def evaluate_position (G : Game) (p : G.Pos) : Int :=
  (G.piece_map p).foldl
    (fun total pc => total + PIECE_VALUES pc.pieceType * (if pc.color then 1 else -1)) 0

/-- The inner `mvv_lva` scoring function of `MiniMax._order_moves`. -/
def mvv_lva (G : Game) (p : G.Pos) (m : G.Move) : Int :=
  if G.is_capture p m then
    let vic := G.piece_at p
      (if !(G.is_en_passant p m) then G.to_square m
       else G.to_square m + (if G.turn p then -8 else 8))
    let atk := G.piece_at p (G.from_square m)
    let v := match vic with | some pc => PIECE_VALUES pc.pieceType | none => 0
    let a := match atk with | some pc => PIECE_VALUES pc.pieceType | none => 0
    v * 100 - a
  else -1

/-- `MiniMax._order_moves`: killer first, then captures sorted descending
by MVV-LVA (a stable sort, like Python's `list.sort(reverse=True)`),
then the remaining moves in the rules engine's order. -/
def order_moves (G : Game) (killers : List (Nat × G.Move)) (b : Board G)
    (depth : Nat) : List G.Move :=
  let p := b.cur
  let km := killersGet killers depth
  let moves := G.legalMoves p
  let pre : List G.Move × List G.Move :=
    match km with
    | some k => if k ∈ moves then ([k], moves.erase k) else ([], moves)
    | none => ([], moves)
  let captures := (pre.2.filter (fun m => G.is_capture p m)).insertionSort
    (fun m1 m2 => decide (mvv_lva G p m2 ≤ mvv_lva G p m1))
  pre.1 ++ captures ++ pre.2.filter (fun m => !(G.is_capture p m))

/-! ### Transposition-table probes (the head of `__min` / `__max`) -/

/-- The probe at the top of `MiniMax.__min` (lines 65-70). -/
def tt_probe_min {G : Game} (tt : List (Nat × TTEntry G)) (key : Nat)
    (depth : Nat) (alpha beta : Score) : Option (Score × PyMove G) :=
  match ttGet tt key with
  | none => none
  | some e =>
    if e.depthSearched ≥ depth then
      if e.flag = 0 ∨ (e.flag > 0 ∧ e.score ≤ alpha) ∨ (e.flag < 0 ∧ e.score < beta)
      then some (e.score, e.move) else none
    else none

/-- The probe at the top of `MiniMax.__max` (lines 108-113). -/
def tt_probe_max {G : Game} (tt : List (Nat × TTEntry G)) (key : Nat)
    (depth : Nat) (alpha beta : Score) : Option (Score × PyMove G) :=
  match ttGet tt key with
  | none => none
  | some e =>
    if e.depthSearched ≥ depth then
      if e.flag = 0 ∨ (e.flag < 0 ∧ e.score ≥ beta) ∨ (e.flag > 0 ∧ e.score > alpha)
      then some (e.score, e.move) else none
    else none

/-! ### The search recursion (`MiniMax.__min` / `MiniMax.__max`)

The two mirrored recursive operations are embedded as one function with a
`maximize` role flag (each `if maximize … else …` pair corresponds to the
point where the two Python bodies differ); mutation of the board, the
transposition table and the killer table is made explicit by threading
them through the result. -/

/-- Result of a search call: `(score, move, board-after, state-after)`.
The returned move is `none` exactly where Python returns `None`. -/
abbrev SearchRes (G : Game) := Score × Option (PyMove G) × Board G × EngineState G

/-- Output of the move loop of one node: running best score and move,
the window bounds as narrowed by the loop, and the threaded state. -/
structure LoopOut (G : Game) where
  best : Score
  bm : Option G.Move
  alpha : Score
  beta : Score
  board : Board G
  st : EngineState G

/-- The move loop of `MiniMax.__min` (lines 80-92): push, recurse into
the maximizing role one ply shallower, pop, keep the smaller score,
shrink `beta`, and on `alpha >= beta` record the killer and break. -/
def minLoop (G : Game) (rec : Board G → Score → Score → EngineState G → SearchRes G)
    (depth : Nat) :
    List G.Move → Board G → Score → Score → Score → Option G.Move →
    EngineState G → LoopOut G
  | [], b, alpha, beta, best, bm, st => ⟨best, bm, alpha, beta, b, st⟩
  | m :: ms, b, alpha, beta, best, bm, st =>
    let r := rec (b.push m) alpha beta st
    let score := r.1
    let b2 := r.2.2.1.pop
    let st1 := r.2.2.2
    let best' := if score < best then score else best
    let bm' := if score < best then some m else bm
    let beta' := min beta best'
    if alpha ≥ beta' then
      ⟨best', bm', alpha, beta', b2,
        { st1 with killers := killersSet st1.killers depth m }⟩
    else
      minLoop G rec depth ms b2 alpha beta' best' bm' st1

/-- The move loop of `MiniMax.__max` (lines 123-134). -/
def maxLoop (G : Game) (rec : Board G → Score → Score → EngineState G → SearchRes G)
    (depth : Nat) :
    List G.Move → Board G → Score → Score → Score → Option G.Move →
    EngineState G → LoopOut G
  | [], b, alpha, beta, best, bm, st => ⟨best, bm, alpha, beta, b, st⟩
  | m :: ms, b, alpha, beta, best, bm, st =>
    let r := rec (b.push m) alpha beta st
    let score := r.1
    let b2 := r.2.2.1.pop
    let st1 := r.2.2.2
    let best' := if score > best then score else best
    let bm' := if score > best then some m else bm
    let alpha' := max alpha best'
    if alpha' ≥ beta then
      ⟨best', bm', alpha', beta, b2,
        { st1 with killers := killersSet st1.killers depth m }⟩
    else
      maxLoop G rec depth ms b2 alpha' beta best' bm' st1

/-- `MiniMax.__max` (when `maximize = true`) and `MiniMax.__min` (when
`maximize = false`): probe the table, evaluate at depth 0, otherwise run
the move loop and store the result.  The stored flag mirrors the source
literally: `__min` compares `best_score` against the saved `alpha0` and
the loop-final `beta` (lines 95-100), `__max` against the loop-final
`alpha` and the saved `beta0` (lines 137-142). -/
def search (G : Game) : Nat → Bool → Board G → Score → Score → EngineState G →
    SearchRes G
  | depth, maximize, b, alpha, beta, st =>
    let key := G.fen b.cur
    let hit := if maximize then tt_probe_max st.tt key depth alpha beta
               else tt_probe_min st.tt key depth alpha beta
    match hit with
    | some (sc, mv) => (sc, some mv, b, st)
    | none =>
      match depth with
      | 0 => (.fin (evaluate_position G b.cur), none, b, st)
      | d + 1 =>
        if maximize then
          let out := maxLoop G (fun b' a' b'' st' => search G d false b' a' b'' st')
            (d + 1) (order_moves G st.killers b (d + 1)) b alpha beta .ninf none st
          let flag : Int :=
            if out.best ≤ out.alpha then 1 else if out.best ≥ beta then -1 else 0
          let entry : TTEntry G :=
            ⟨out.best, (match out.bm with | some m => .real m | none => .null),
              d + 1, flag⟩
          (out.best, out.bm.map .real, out.board,
            { out.st with tt := ttSet out.st.tt key entry })
        else
          let out := minLoop G (fun b' a' b'' st' => search G d true b' a' b'' st')
            (d + 1) (order_moves G st.killers b (d + 1)) b alpha beta .pinf none st
          let flag : Int :=
            if out.best ≤ alpha then 1 else if out.best ≥ out.beta then -1 else 0
          let entry : TTEntry G :=
            ⟨out.best, (match out.bm with | some m => .real m | none => .null),
              d + 1, flag⟩
          (out.best, out.bm.map .real, out.board,
            { out.st with tt := ttSet out.st.tt key entry })

/-! ### The driver (`MiniMax.move`) -/

/-- One iteration `d` of the iterative-deepening loop (lines 151-158):
run the root search for the side to move with a full window and keep
the returned move when it is not `None`. -/
def moveStep (G : Game) (acc : Option (PyMove G) × Board G × EngineState G)
    (d : Nat) : Option (PyMove G) × Board G × EngineState G :=
  let r := if G.turn acc.2.1.cur = true
           then search G d true acc.2.1 .ninf .pinf acc.2.2
           else search G d false acc.2.1 .ninf .pinf acc.2.2
  (match r.2.1 with | some mv => some mv | none => acc.1, r.2.2.1, r.2.2.2)

/-- The iterative-deepening loop over `d = 1, …, maxDepth`, started on
`board_copy = board.copy()` (so the caller's board is never pushed to). -/
def moveFold (G : Game) (maxDepth : Nat) (b : Board G) (st : EngineState G) :
    Option (PyMove G) × Board G × EngineState G :=
  (List.range' 1 maxDepth).foldl (moveStep G) (none, b, st)

/-- `MiniMax.move` (lines 147-161): iterative deepening, then
`assert best_move is not None, "No legal move found"` modelled as an
`Except.error`. -/
def MiniMax.move (G : Game) (maxDepth : Nat) (b : Board G) (st : EngineState G) :
    Except String (PyMove G) × EngineState G :=
  let out := moveFold G maxDepth b st
  match out.1 with
  | some m => (.ok m, out.2.2)
  | none => (.error "No legal move found", out.2.2)

/-! ### The spec-side reference: full unpruned minimax -/

/-- Modelled from the spec: "full (unpruned) minimax score for the same
depth and position" over the same evaluation function, with the role's
sentinel at a position with no legal moves (spec §4.4 step 5). -/
def minimaxScore (G : Game) : Nat → Bool → G.Pos → Score
  | 0, _, p => .fin (evaluate_position G p)
  | d + 1, maximize, p =>
    let cs := (G.legalMoves p).map (fun m => minimaxScore G d (!maximize) (G.apply p m))
    if maximize then cs.foldl max .ninf else cs.foldl min .pinf

/-- Modelled from the spec: the store rule of §4.3 — the bound flag
derived from the original window `(alpha0, beta0)`. -/
def specStoreFlag (alpha0 beta0 best : Score) : Int :=
  if best ≤ alpha0 then 1 else if best ≥ beta0 then -1 else 0

/-- All position occurrences in the depth-`d` game tree rooted at `p`
(the nodes the search can visit, in visit order of the rules engine). -/
def treePositions (G : Game) : Nat → G.Pos → List G.Pos
  | 0, p => [p]
  | d + 1, p => p :: (G.legalMoves p).flatMap (fun m => treePositions G d (G.apply p m))

/-- Every entry of the table was stored by a search of depth at most `D`. -/
def ttDepthLe {G : Game} (tt : List (Nat × TTEntry G)) (D : Nat) : Prop :=
  ∀ kv ∈ tt, kv.2.depthSearched ≤ D

/-- A game in which every position is terminal (no legal moves). -/
def Gterm : Game where
  Pos := Nat
  Move := Nat
  decEqMove := inferInstance
  legalMoves := fun _ => []
  apply := fun p _ => p
  fen := fun p => p
  turn := fun _ => true
  is_capture := fun _ _ => false
  is_en_passant := fun _ _ => false
  piece_at := fun _ _ => none
  to_square := fun _ => 0
  from_square := fun _ => 0
  piece_map := fun _ => []

/-- The root board of `Gterm`. -/
def bterm : Board Gterm := ⟨(0 : Nat), []⟩

/-- A game with a single legal move at the root: position 0 has the one
move 0 leading to position 1 (one white pawn on the board, evaluation 5);
position 1 is terminal. -/
def GC2 : Game where
  Pos := Nat
  Move := Nat
  decEqMove := inferInstance
  legalMoves := fun p => if p = 0 then [0] else []
  apply := fun _ _ => 1
  fen := fun p => p
  turn := fun _ => true
  is_capture := fun _ _ => false
  is_en_passant := fun _ _ => false
  piece_at := fun _ _ => none
  to_square := fun _ => 0
  from_square := fun _ => 0
  piece_map := fun p => if p = 1 then [⟨1, true⟩] else []

/-- The root board of `GC2`. -/
def bGC2 : Board GC2 := ⟨(0 : Nat), []⟩

/-- The canonical keys of the depth-`d` search tree below `p`. -/
def treeKeys (G : Game) (d : Nat) (p : G.Pos) : List Nat :=
  (treePositions G d p).map G.fen

/-- Fail-soft relation between a search result `r` and the true value `v`
at window `(alpha, beta)`: below the window `r` is an upper bound on `v`,
above it a lower bound, and inside it exact. -/
def failsoft (alpha beta r v : Score) : Prop :=
  (r ≤ alpha → v ≤ r) ∧ (beta ≤ r → r ≤ v) ∧ (alpha < r → r < beta → r = v)

/-- A game with a transposition: from the root 0, move 0 reaches 1 and
move 1 reaches 2; positions 1 and 2 both have a move into position 3
(the shared node); 3 has two leaf children worth 50 and 80, the other
children lead to leaves worth 10 (under 1) and 60 (under 2). All
positions are distinct, keys are the identity. -/
def Gcx : Game where
  Pos := Nat
  Move := Nat
  decEqMove := inferInstance
  legalMoves := fun p =>
    if p = 0 then [0, 1] else if p = 1 then [0, 1] else if p = 2 then [0, 1]
    else if p = 3 then [0, 1] else if p = 4 then [0] else if p = 5 then [0]
    else []
  apply := fun p m =>
    if p = 0 then (if m = 0 then 1 else 2)
    else if p = 1 then (if m = 0 then 4 else 3)
    else if p = 2 then (if m = 0 then 3 else 5)
    else if p = 3 then (if m = 0 then 6 else 7)
    else if p = 4 then 8 else if p = 5 then 9 else 99
  fen := fun p => p
  turn := fun _ => true
  is_capture := fun _ _ => false
  is_en_passant := fun _ _ => false
  piece_at := fun _ _ => none
  to_square := fun _ => 0
  from_square := fun _ => 0
  piece_map := fun p =>
    if p = 6 then List.replicate 10 ⟨1, true⟩
    else if p = 7 then List.replicate 16 ⟨1, true⟩
    else if p = 8 then List.replicate 2 ⟨1, true⟩
    else if p = 9 then List.replicate 12 ⟨1, true⟩ else []

/-- The root board of `Gcx`. -/
def bcx : Board Gcx := ⟨(0 : Nat), []⟩

/-! ### Basic facts about scores and boards -/

namespace Score

@[simp] theorem ninf_le (s : Score) : Score.ninf ≤ s := by
  cases s <;> simp [le_def, ble]

@[simp] theorem le_pinf (s : Score) : s ≤ Score.pinf := by
  cases s <;> simp [le_def, ble]

@[simp] theorem fin_le_fin {a b : Int} : (Score.fin a ≤ Score.fin b) ↔ a ≤ b := by
  simp [le_def, ble]

@[simp] theorem fin_lt_fin {a b : Int} : (Score.fin a < Score.fin b) ↔ a < b := by
  simp [lt_def, ble]

@[simp] theorem ninf_lt_fin (a : Int) : Score.ninf < Score.fin a := by
  simp [lt_def, ble]

@[simp] theorem fin_lt_pinf (a : Int) : Score.fin a < Score.pinf := by
  simp [lt_def, ble]

@[simp] theorem ninf_lt_pinf : Score.ninf < Score.pinf := by
  simp [lt_def, ble]

@[simp] theorem not_lt_ninf (s : Score) : ¬ s < Score.ninf := by
  cases s <;> simp [lt_def, ble]

@[simp] theorem not_pinf_lt (s : Score) : ¬ Score.pinf < s := by
  cases s <;> simp [lt_def, ble]

@[simp] theorem le_ninf_iff {s : Score} : s ≤ Score.ninf ↔ s = Score.ninf := by
  cases s <;> simp [le_def, ble]

@[simp] theorem pinf_le_iff {s : Score} : Score.pinf ≤ s ↔ s = Score.pinf := by
  cases s <;> simp [le_def, ble]

end Score

namespace Board

variable {G : Game}

@[simp] theorem cur_push (b : Board G) (m : G.Move) :
    (b.push m).cur = G.apply b.cur m := by
  simp [cur, push, List.foldl_append]

@[simp] theorem pop_push (b : Board G) (m : G.Move) : (b.push m).pop = b := by
  simp [pop, push, List.dropLast_concat]

end Board

/-! ### The move orderer covers exactly the legal-move set -/

theorem order_moves_perm (G : Game) (ks : List (Nat × G.Move)) (b : Board G)
    (d : Nat) : (order_moves G ks b d).Perm (G.legalMoves b.cur) := by
  unfold order_moves
  have base : ∀ l : List G.Move,
      ((l.filter (fun m => G.is_capture b.cur m)).insertionSort
        (fun m1 m2 => decide (mvv_lva G b.cur m2 ≤ mvv_lva G b.cur m1)) ++
        l.filter (fun m => !(G.is_capture b.cur m))).Perm l := by
    intro l
    exact ((List.perm_insertionSort _ _).append_right _).trans
      (List.filter_append_perm _ l)
  cases hk : killersGet ks d with
  | none => simpa using base (G.legalMoves b.cur)
  | some k =>
    by_cases hmem : k ∈ G.legalMoves b.cur
    · simp only [hk, if_pos hmem, List.singleton_append]
      exact ((base ((G.legalMoves b.cur).erase k)).cons k).trans
        (List.perm_cons_erase hmem).symm
    · simpa [hk, if_neg hmem] using base (G.legalMoves b.cur)

/-! ### The push/undo discipline: every search call restores the board -/

theorem minLoop_board (G : Game)
    (rec : Board G → Score → Score → EngineState G → SearchRes G) (depth : Nat)
    (hrec : ∀ b' a' b'' st', (rec b' a' b'' st').2.2.1 = b') :
    ∀ (ms : List G.Move) (b : Board G) (alpha beta best : Score)
      (bm : Option G.Move) (st : EngineState G),
      (minLoop G rec depth ms b alpha beta best bm st).board = b := by
  intro ms
  induction ms with
  | nil => intro b alpha beta best bm st; rfl
  | cons m ms ih =>
    intro b alpha beta best bm st
    rw [minLoop]
    simp only [hrec, Board.pop_push]
    split <;> split
    · rfl
    · exact ih b _ _ _ _ _
    · rfl
    · exact ih b _ _ _ _ _

theorem maxLoop_board (G : Game)
    (rec : Board G → Score → Score → EngineState G → SearchRes G) (depth : Nat)
    (hrec : ∀ b' a' b'' st', (rec b' a' b'' st').2.2.1 = b') :
    ∀ (ms : List G.Move) (b : Board G) (alpha beta best : Score)
      (bm : Option G.Move) (st : EngineState G),
      (maxLoop G rec depth ms b alpha beta best bm st).board = b := by
  intro ms
  induction ms with
  | nil => intro b alpha beta best bm st; rfl
  | cons m ms ih =>
    intro b alpha beta best bm st
    rw [maxLoop]
    simp only [hrec, Board.pop_push]
    split <;> split
    · rfl
    · exact ih b _ _ _ _ _
    · rfl
    · exact ih b _ _ _ _ _

theorem search_board (G : Game) (d : Nat) (mx : Bool) (b : Board G)
    (alpha beta : Score) (st : EngineState G) :
    (search G d mx b alpha beta st).2.2.1 = b := by
  induction d generalizing mx b alpha beta st with
  | zero =>
    rw [search]
    split
    · rfl
    · rfl
  | succ d ih =>
    rw [search]
    split
    · rfl
    · split
      · exact maxLoop_board G _ _ (fun b' a' b'' st' => ih false b' a' b'' st') _ _ _ _ _ _ _
      · exact minLoop_board G _ _ (fun b' a' b'' st' => ih true b' a' b'' st') _ _ _ _ _ _ _

/-! ### Depth bound on stored transposition entries -/

theorem minLoop_ttDepthLe (G : Game)
    (rec : Board G → Score → Score → EngineState G → SearchRes G) (depth D : Nat)
    (hrec : ∀ b' a' b'' st', ttDepthLe st'.tt D →
      ttDepthLe (rec b' a' b'' st').2.2.2.tt D) :
    ∀ (ms : List G.Move) (b : Board G) (alpha beta best : Score)
      (bm : Option G.Move) (st : EngineState G), ttDepthLe st.tt D →
      ttDepthLe (minLoop G rec depth ms b alpha beta best bm st).st.tt D := by
  intro ms
  induction ms with
  | nil => intro b alpha beta best bm st h; exact h
  | cons m ms ih =>
    intro b alpha beta best bm st h
    rw [minLoop]
    split <;> split
    · exact hrec _ _ _ _ h
    · exact ih _ _ _ _ _ _ (hrec _ _ _ _ h)
    · exact hrec _ _ _ _ h
    · exact ih _ _ _ _ _ _ (hrec _ _ _ _ h)

theorem maxLoop_ttDepthLe (G : Game)
    (rec : Board G → Score → Score → EngineState G → SearchRes G) (depth D : Nat)
    (hrec : ∀ b' a' b'' st', ttDepthLe st'.tt D →
      ttDepthLe (rec b' a' b'' st').2.2.2.tt D) :
    ∀ (ms : List G.Move) (b : Board G) (alpha beta best : Score)
      (bm : Option G.Move) (st : EngineState G), ttDepthLe st.tt D →
      ttDepthLe (maxLoop G rec depth ms b alpha beta best bm st).st.tt D := by
  intro ms
  induction ms with
  | nil => intro b alpha beta best bm st h; exact h
  | cons m ms ih =>
    intro b alpha beta best bm st h
    rw [maxLoop]
    split <;> split
    · exact hrec _ _ _ _ h
    · exact ih _ _ _ _ _ _ (hrec _ _ _ _ h)
    · exact hrec _ _ _ _ h
    · exact ih _ _ _ _ _ _ (hrec _ _ _ _ h)

theorem search_ttDepthLe (G : Game) (d : Nat) :
    ∀ (mx : Bool) (b : Board G) (alpha beta : Score) (st : EngineState G) (D : Nat),
      d ≤ D → ttDepthLe st.tt D →
      ttDepthLe (search G d mx b alpha beta st).2.2.2.tt D := by
  induction d with
  | zero =>
    intro mx b alpha beta st D _ h
    rw [search]
    split
    · exact h
    · exact h
  | succ d ih =>
    intro mx b alpha beta st D hD h
    rw [search]
    split
    · exact h
    · have hrec1 : ∀ b' a' b'' st', ttDepthLe (st' : EngineState G).tt D →
          ttDepthLe (search G d false b' a' b'' st').2.2.2.tt D :=
        fun b' a' b'' st' hh => ih false b' a' b'' st' D (Nat.le_of_succ_le hD) hh
      have hrec2 : ∀ b' a' b'' st', ttDepthLe (st' : EngineState G).tt D →
          ttDepthLe (search G d true b' a' b'' st').2.2.2.tt D :=
        fun b' a' b'' st' hh => ih true b' a' b'' st' D (Nat.le_of_succ_le hD) hh
      split
      · intro kv hkv
        simp only [ttSet, List.mem_cons] at hkv
        rcases hkv with rfl | hkv
        · exact hD
        · exact maxLoop_ttDepthLe G _ _ D hrec1 _ _ _ _ _ _ _ h kv hkv
      · intro kv hkv
        simp only [ttSet, List.mem_cons] at hkv
        rcases hkv with rfl | hkv
        · exact hD
        · exact minLoop_ttDepthLe G _ _ D hrec2 _ _ _ _ _ _ _ h kv hkv

/-! ### The loop's best move comes from the scanned list -/

theorem minLoop_bm_mem (G : Game)
    (rec : Board G → Score → Score → EngineState G → SearchRes G) (depth : Nat) :
    ∀ (ms : List G.Move) (b : Board G) (alpha beta best : Score)
      (bm : Option G.Move) (st : EngineState G),
      (minLoop G rec depth ms b alpha beta best bm st).bm = bm ∨
      ∃ m, m ∈ ms ∧ (minLoop G rec depth ms b alpha beta best bm st).bm = some m := by
  intro ms
  induction ms with
  | nil => intro b alpha beta best bm st; exact Or.inl rfl
  | cons m ms ih =>
    intro b alpha beta best bm st
    rw [minLoop]
    split <;> split
    · exact Or.inr ⟨m, List.mem_cons_self m ms, rfl⟩
    · rcases ih _ _ _ _ _ _ with h | ⟨m', hm', h⟩
      · exact Or.inr ⟨m, List.mem_cons_self m ms, h⟩
      · exact Or.inr ⟨m', List.mem_cons_of_mem m hm', h⟩
    · exact Or.inl rfl
    · rcases ih _ _ _ _ _ _ with h | ⟨m', hm', h⟩
      · exact Or.inl h
      · exact Or.inr ⟨m', List.mem_cons_of_mem m hm', h⟩

theorem maxLoop_bm_mem (G : Game)
    (rec : Board G → Score → Score → EngineState G → SearchRes G) (depth : Nat) :
    ∀ (ms : List G.Move) (b : Board G) (alpha beta best : Score)
      (bm : Option G.Move) (st : EngineState G),
      (maxLoop G rec depth ms b alpha beta best bm st).bm = bm ∨
      ∃ m, m ∈ ms ∧ (maxLoop G rec depth ms b alpha beta best bm st).bm = some m := by
  intro ms
  induction ms with
  | nil => intro b alpha beta best bm st; exact Or.inl rfl
  | cons m ms ih =>
    intro b alpha beta best bm st
    rw [maxLoop]
    split <;> split
    · exact Or.inr ⟨m, List.mem_cons_self m ms, rfl⟩
    · rcases ih _ _ _ _ _ _ with h | ⟨m', hm', h⟩
      · exact Or.inr ⟨m, List.mem_cons_self m ms, h⟩
      · exact Or.inr ⟨m', List.mem_cons_of_mem m hm', h⟩
    · exact Or.inl rfl
    · rcases ih _ _ _ _ _ _ with h | ⟨m', hm', h⟩
      · exact Or.inl h
      · exact Or.inr ⟨m', List.mem_cons_of_mem m hm', h⟩

/-! ### Probe behaviour on a missing key -/

@[simp] theorem tt_probe_min_none {G : Game} (tt : List (Nat × TTEntry G))
    (key depth : Nat) (alpha beta : Score) (h : ttGet tt key = none) :
    tt_probe_min tt key depth alpha beta = none := by
  simp [tt_probe_min, h]

@[simp] theorem tt_probe_max_none {G : Game} (tt : List (Nat × TTEntry G))
    (key depth : Nat) (alpha beta : Score) (h : ttGet tt key = none) :
    tt_probe_max tt key depth alpha beta = none := by
  simp [tt_probe_max, h]

/-- A probe whose cached entry is too shallow misses. -/
theorem probe_none_of_depth {G : Game} (tt : List (Nat × TTEntry G))
    (key d : Nat) (alpha beta : Score)
    (h : ∀ e, ttGet tt key = some e → e.depthSearched < d) :
    tt_probe_min tt key d alpha beta = none ∧
    tt_probe_max tt key d alpha beta = none := by
  unfold tt_probe_min tt_probe_max
  cases hget : ttGet tt key with
  | none => exact ⟨rfl, rfl⟩
  | some e =>
    have hlt := h e hget
    have hd : ¬ (e.depthSearched ≥ d) := by omega
    constructor <;> simp [hd]

/-- On a probe miss, the move returned by a search is `None` or one of
the position's legal moves. -/
theorem search_move_mem (G : Game) (d : Nat) (mx : Bool) (b : Board G)
    (alpha beta : Score) (st : EngineState G)
    (hmiss : (if mx then tt_probe_max st.tt (G.fen b.cur) d alpha beta
              else tt_probe_min st.tt (G.fen b.cur) d alpha beta) = none) :
    (search G d mx b alpha beta st).2.1 = none ∨
    ∃ m, m ∈ G.legalMoves b.cur ∧
      (search G d mx b alpha beta st).2.1 = some (.real m) := by
  rcases d with _ | d
  · rw [search]
    cases mx <;> simp_all
  · rw [search]
    cases mx
    · simp only [Bool.false_eq_true, if_false] at hmiss ⊢
      simp only [hmiss]
      rcases minLoop_bm_mem G (fun b' a' b'' st' => search G d true b' a' b'' st')
        (d+1) (order_moves G st.killers b (d+1))
        b alpha beta .pinf none st with h | ⟨m, hm, h⟩
      · left; simp [h]
      · right
        exact ⟨m, ((order_moves_perm G st.killers b (d+1)).mem_iff).1 hm, by simp [h]⟩
    · simp only [if_true] at hmiss ⊢
      simp only [hmiss]
      rcases maxLoop_bm_mem G (fun b' a' b'' st' => search G d false b' a' b'' st')
        (d+1) (order_moves G st.killers b (d+1))
        b alpha beta .ninf none st with h | ⟨m, hm, h⟩
      · left; simp [h]
      · right
        exact ⟨m, ((order_moves_perm G st.killers b (d+1)).mem_iff).1 hm, by simp [h]⟩

/-! ### Searching a position with no legal move (terminal) -/

theorem order_moves_nil (G : Game) (ks : List (Nat × G.Move)) (b : Board G)
    (d : Nat) (hleg : G.legalMoves b.cur = []) : order_moves G ks b d = [] := by
  unfold order_moves
  cases killersGet ks d <;> simp [hleg]

theorem order_moves_singleton (G : Game) (ks : List (Nat × G.Move)) (b : Board G)
    (d : Nat) (m : G.Move) (hleg : G.legalMoves b.cur = [m]) :
    order_moves G ks b d = [m] := by
  unfold order_moves
  cases hk : killersGet ks d with
  | none =>
    cases hc : G.is_capture b.cur m <;>
      simp [hleg, List.filter_cons, hc, List.insertionSort]
  | some k =>
    by_cases hmem : k ∈ (G.legalMoves b.cur)
    · rw [hleg] at hmem
      rcases List.mem_singleton.1 hmem with rfl
      simp [hleg, List.erase_cons]
    · have hne : ¬ (k = m) := by
        rw [hleg] at hmem; simpa using hmem
      cases hc : G.is_capture b.cur m <;>
        simp [hleg, hne, List.filter_cons, hc, List.insertionSort]

theorem search_terminal_min (G : Game) (d : Nat) (b : Board G)
    (alpha beta : Score) (st : EngineState G)
    (hleg : G.legalMoves b.cur = [])
    (hprobe : tt_probe_min st.tt (G.fen b.cur) (d + 1) alpha beta = none) :
    search G (d + 1) false b alpha beta st =
      (.pinf, none, b,
        ⟨ttSet st.tt (G.fen b.cur)
          ⟨.pinf, .null, d + 1, if Score.pinf ≤ alpha then 1 else -1⟩,
         st.killers⟩) := by
  rw [search]
  simp only [Bool.false_eq_true, if_false, hprobe,
    order_moves_nil G st.killers b (d + 1) hleg, minLoop]
  simp [Score.le_pinf]

theorem search_terminal_max (G : Game) (d : Nat) (b : Board G)
    (alpha beta : Score) (st : EngineState G)
    (hleg : G.legalMoves b.cur = [])
    (hprobe : tt_probe_max st.tt (G.fen b.cur) (d + 1) alpha beta = none) :
    search G (d + 1) true b alpha beta st =
      (.ninf, none, b,
        ⟨ttSet st.tt (G.fen b.cur) ⟨.ninf, .null, d + 1, 1⟩, st.killers⟩) := by
  rw [search]
  simp only [if_true, hprobe,
    order_moves_nil G st.killers b (d + 1) hleg, maxLoop]
  simp [Score.ninf_le]

/-- A successful min-probe returns the stored entry's score and move. -/
theorem tt_probe_min_some {G : Game} {tt : List (Nat × TTEntry G)}
    {key d : Nat} {alpha beta sc : Score} {mv : PyMove G}
    (h : tt_probe_min tt key d alpha beta = some (sc, mv)) :
    ∃ e, ttGet tt key = some e ∧ sc = e.score ∧ mv = e.move := by
  unfold tt_probe_min at h
  cases hget : ttGet tt key with
  | none => rw [hget] at h; cases h
  | some e =>
    rw [hget] at h
    have h' : (if e.depthSearched ≥ d then
        (if e.flag = 0 ∨ (e.flag > 0 ∧ e.score ≤ alpha) ∨
            (e.flag < 0 ∧ e.score < beta)
         then some (e.score, e.move) else none)
        else none) = some (sc, mv) := h
    split at h'
    · split at h'
      · cases h'; exact ⟨e, rfl, rfl, rfl⟩
      · cases h'
    · cases h'

/-- A successful max-probe returns the stored entry's score and move. -/
theorem tt_probe_max_some {G : Game} {tt : List (Nat × TTEntry G)}
    {key d : Nat} {alpha beta sc : Score} {mv : PyMove G}
    (h : tt_probe_max tt key d alpha beta = some (sc, mv)) :
    ∃ e, ttGet tt key = some e ∧ sc = e.score ∧ mv = e.move := by
  unfold tt_probe_max at h
  cases hget : ttGet tt key with
  | none => rw [hget] at h; cases h
  | some e =>
    rw [hget] at h
    have h' : (if e.depthSearched ≥ d then
        (if e.flag = 0 ∨ (e.flag < 0 ∧ e.score ≥ beta) ∨
            (e.flag > 0 ∧ e.score > alpha)
         then some (e.score, e.move) else none)
        else none) = some (sc, mv) := h
    split at h'
    · split at h'
      · cases h'; exact ⟨e, rfl, rfl, rfl⟩
      · cases h'
    · cases h'

/-! ### Concrete games used as witnesses -/

/-! ### Claim theorems -/

/-- C3: a cached entry is returned iff `entry.depthSearched >= requestedDepth`
and the bound condition of the probing role holds (EXACT always usable; at a
minimizing node UPPERBOUND with `score <= alpha` or LOWERBOUND with
`score < beta`; at a maximizing node LOWERBOUND with `score >= beta` or
UPPERBOUND with `score > alpha`), and a hit short-circuits the search,
returning the cached score and move. -/
theorem claim_C3 (G : Game) (st : EngineState G) (key depth : Nat)
    (alpha beta : Score) :
    ((tt_probe_min st.tt key depth alpha beta).isSome ↔
      ∃ e, ttGet st.tt key = some e ∧ depth ≤ e.depthSearched ∧
        (e.flag = 0 ∨ (0 < e.flag ∧ e.score ≤ alpha) ∨
          (e.flag < 0 ∧ e.score < beta))) ∧
    ((tt_probe_max st.tt key depth alpha beta).isSome ↔
      ∃ e, ttGet st.tt key = some e ∧ depth ≤ e.depthSearched ∧
        (e.flag = 0 ∨ (e.flag < 0 ∧ beta ≤ e.score) ∨
          (0 < e.flag ∧ alpha < e.score))) ∧
    (∀ (b : Board G) (sc : Score) (mv : PyMove G), G.fen b.cur = key →
      tt_probe_min st.tt key depth alpha beta = some (sc, mv) →
      search G depth false b alpha beta st = (sc, some mv, b, st)) ∧
    (∀ (b : Board G) (sc : Score) (mv : PyMove G), G.fen b.cur = key →
      tt_probe_max st.tt key depth alpha beta = some (sc, mv) →
      search G depth true b alpha beta st = (sc, some mv, b, st)) := by
  refine ⟨?_, ?_, ?_, ?_⟩
  · unfold tt_probe_min
    cases hget : ttGet st.tt key with
    | none => simp
    | some e =>
      simp only [hget, Option.some.injEq]
      constructor
      · intro h
        split at h
        next hdep =>
          split at h
          next hcond => exact ⟨e, rfl, hdep, hcond⟩
          next => simp at h
        next => simp at h
      · rintro ⟨e', rfl, hd, hc⟩
        rw [if_pos hd, if_pos hc]
        rfl
  · unfold tt_probe_max
    cases hget : ttGet st.tt key with
    | none => simp
    | some e =>
      simp only [hget, Option.some.injEq]
      constructor
      · intro h
        split at h
        next hdep =>
          split at h
          next hcond => exact ⟨e, rfl, hdep, hcond⟩
          next => simp at h
        next => simp at h
      · rintro ⟨e', rfl, hd, hc⟩
        rw [if_pos hd, if_pos hc]
        rfl
  · intro b sc mv hkey hprobe
    rcases depth with _ | d <;>
      · rw [search]
        simp [hkey, hprobe]
  · intro b sc mv hkey hprobe
    rcases depth with _ | d <;>
      · rw [search]
        simp [hkey, hprobe]

/-- C3 witness: a concrete EXACT entry of depth 3 is returned by a probe at
depth 2 and short-circuits the minimizing search. -/
theorem claim_C3_witness :
    search Gterm 2 false bterm .ninf .pinf
      ⟨[(0, ⟨.fin 7, .real (5 : Nat), 3, 0⟩)], []⟩ =
      (.fin 7, some (.real (5 : Nat)), bterm,
        ⟨[(0, ⟨.fin 7, .real (5 : Nat), 3, 0⟩)], []⟩) :=
  (claim_C3 Gterm ⟨[(0, ⟨.fin 7, .real (5 : Nat), 3, 0⟩)], []⟩ 0 2
      .ninf .pinf).2.2.1
    bterm (.fin 7) (.real (5 : Nat)) rfl (by decide)

/-- C6: a search of a position with no legal moves at depth ≥ 1 returns an
empty best move and the role's initial sentinel (`+inf` minimizing, `-inf`
maximizing). -/
theorem claim_C6 (G : Game) (d : Nat) (b : Board G) (alpha beta : Score)
    (st : EngineState G) (hleg : G.legalMoves b.cur = [])
    (hmiss : ttGet st.tt (G.fen b.cur) = none) :
    (search G (d + 1) false b alpha beta st).1 = .pinf ∧
    (search G (d + 1) false b alpha beta st).2.1 = none ∧
    (search G (d + 1) true b alpha beta st).1 = .ninf ∧
    (search G (d + 1) true b alpha beta st).2.1 = none := by
  rw [search_terminal_min G d b alpha beta st hleg
      (tt_probe_min_none _ _ _ _ _ hmiss),
    search_terminal_max G d b alpha beta st hleg
      (tt_probe_max_none _ _ _ _ _ hmiss)]
  exact ⟨rfl, rfl, rfl, rfl⟩

/-- C6 witness: the terminal game at depth 1 with fresh tables. -/
theorem claim_C6_witness :
    (search Gterm 1 false bterm .ninf .pinf (EngineState.fresh Gterm)).1 = .pinf ∧
    (search Gterm 1 false bterm .ninf .pinf (EngineState.fresh Gterm)).2.1 = none ∧
    (search Gterm 1 true bterm .ninf .pinf (EngineState.fresh Gterm)).1 = .ninf ∧
    (search Gterm 1 true bterm .ninf .pinf (EngineState.fresh Gterm)).2.1 = none :=
  claim_C6 Gterm 0 bterm .ninf .pinf (EngineState.fresh Gterm) rfl rfl

/-- C7: every search call restores the board it was handed — each pushed
move is popped on every exit path, so the board after the call equals the
board before it. -/
theorem claim_C7 (G : Game) (d : Nat) (mx : Bool) (b : Board G)
    (alpha beta : Score) (st : EngineState G) :
    (search G d mx b alpha beta st).2.2.1 = b :=
  search_board G d mx b alpha beta st

/-- C8: the move orderer returns a permutation of the legal-move set —
every legal move exactly once, no illegal move. -/
theorem claim_C8 (G : Game) (killers : List (Nat × G.Move)) (b : Board G)
    (d : Nat) : (order_moves G killers b d).Perm (G.legalMoves b.cur) :=
  order_moves_perm G killers b d

/-- C9: searching a position with no legal moves at depth ≥ 1 stores the
null move (not an empty/`None` move) in the transposition table; any probe
hit on that key hence yields the stored null move, and a search whose probe
hits returns `some` of it, which the driver's `is not None` test accepts. -/
theorem claim_C9 (G : Game) (d : Nat) (b : Board G) (alpha beta : Score)
    (st : EngineState G) (hleg : G.legalMoves b.cur = [])
    (hmiss : ttGet st.tt (G.fen b.cur) = none) :
    (∃ e, ttGet (search G (d + 1) false b alpha beta st).2.2.2.tt
        (G.fen b.cur) = some e ∧ e.move = PyMove.null ∧
        e.depthSearched = d + 1) ∧
    (∃ e, ttGet (search G (d + 1) true b alpha beta st).2.2.2.tt
        (G.fen b.cur) = some e ∧ e.move = PyMove.null ∧
        e.depthSearched = d + 1) ∧
    (∀ (depth' : Nat) (a' b' sc : Score) (mv : PyMove G),
      tt_probe_min (search G (d + 1) false b alpha beta st).2.2.2.tt
          (G.fen b.cur) depth' a' b' = some (sc, mv) → mv = PyMove.null) ∧
    (∀ (depth' : Nat) (a' b' sc : Score) (mv : PyMove G),
      tt_probe_max (search G (d + 1) true b alpha beta st).2.2.2.tt
          (G.fen b.cur) depth' a' b' = some (sc, mv) → mv = PyMove.null) ∧
    (∀ (mx : Bool) (b' : Board G) (st' : EngineState G) (depth' : Nat)
        (a' b'' sc : Score) (mv : PyMove G),
      (if mx then tt_probe_max st'.tt (G.fen b'.cur) depth' a' b''
       else tt_probe_min st'.tt (G.fen b'.cur) depth' a' b'') = some (sc, mv) →
      (search G depth' mx b' a' b'' st').2.1 = some mv) := by
  have hmin := search_terminal_min G d b alpha beta st hleg
    (tt_probe_min_none _ _ _ _ _ hmiss)
  have hmax := search_terminal_max G d b alpha beta st hleg
    (tt_probe_max_none _ _ _ _ _ hmiss)
  refine ⟨?_, ?_, ?_, ?_, ?_⟩
  · rw [hmin]
    refine ⟨⟨.pinf, .null, d + 1, if Score.pinf ≤ alpha then 1 else -1⟩,
      ?_, rfl, rfl⟩
    simp [ttGet, ttSet]
  · rw [hmax]
    refine ⟨⟨.ninf, .null, d + 1, 1⟩, ?_, rfl, rfl⟩
    simp [ttGet, ttSet]
  · intro depth' a' b' sc mv h
    rw [hmin] at h
    rcases tt_probe_min_some h with ⟨e, hget, -, hmv⟩
    rw [show ttGet (ttSet st.tt (G.fen b.cur)
        ⟨.pinf, .null, d + 1, if Score.pinf ≤ alpha then 1 else -1⟩)
        (G.fen b.cur) = some ⟨.pinf, .null, d + 1,
          if Score.pinf ≤ alpha then 1 else -1⟩ by simp [ttGet, ttSet]] at hget
    cases hget
    exact hmv
  · intro depth' a' b' sc mv h
    rw [hmax] at h
    rcases tt_probe_max_some h with ⟨e, hget, -, hmv⟩
    rw [show ttGet (ttSet st.tt (G.fen b.cur) ⟨.ninf, .null, d + 1, 1⟩)
        (G.fen b.cur) = some ⟨.ninf, .null, d + 1, 1⟩
      by simp [ttGet, ttSet]] at hget
    cases hget
    exact hmv
  · intro mx b' st' depth' a' b'' sc mv h
    rcases depth' with _ | d' <;>
      · rw [search]
        simp [h]

/-- C9 witness: the terminal game at depth 1 with fresh tables stores the
null move. -/
theorem claim_C9_witness :
    (∃ e, ttGet (search Gterm 1 false bterm .ninf .pinf
        (EngineState.fresh Gterm)).2.2.2.tt (Gterm.fen bterm.cur) = some e ∧
      e.move = PyMove.null ∧ e.depthSearched = 1) :=
  (claim_C9 Gterm 0 bterm .ninf .pinf (EngineState.fresh Gterm) rfl rfl).1

/-- The key of a successful lookup holds the found entry. -/
theorem ttGet_mem {G : Game} {tt : List (Nat × TTEntry G)} {k : Nat}
    {e : TTEntry G} (h : ttGet tt k = some e) : (k, e) ∈ tt := by
  unfold ttGet at h
  cases hf : tt.find? (fun kv => kv.1 == k) with
  | none => rw [hf] at h; cases h
  | some kv =>
    rw [hf] at h
    have hmem := List.mem_of_find?_eq_some hf
    have hk : kv.1 = k := by
      have := List.find?_some hf
      simpa using this
    cases h
    rw [← hk]
    exact hmem

/-- The driver on a terminal position: every iteration returns no move,
the board is restored, and every stored entry is at most the last depth. -/
theorem moveFold_terminal (G : Game) (b : Board G)
    (hleg : G.legalMoves b.cur = []) : ∀ n : Nat,
    (moveFold G n b (EngineState.fresh G)).1 = none ∧
    (moveFold G n b (EngineState.fresh G)).2.1 = b ∧
    ttDepthLe (moveFold G n b (EngineState.fresh G)).2.2.tt n := by
  intro n
  induction n with
  | zero =>
    refine ⟨rfl, rfl, ?_⟩
    intro kv hkv
    cases hkv
  | succ n ih =>
    obtain ⟨h1, h2, h3⟩ := ih
    unfold moveFold at h1 h2 h3 ⊢
    rw [List.range'_concat, List.foldl_append, List.foldl_cons, List.foldl_nil,
      show 1 + 1 * n = n + 1 by omega]
    set A := (List.range' 1 n).foldl (moveStep G) (none, b, EngineState.fresh G)
      with hA
    have hmiss : ∀ e, ttGet A.2.2.tt (G.fen A.2.1.cur) = some e →
        e.depthSearched < n + 1 := by
      intro e he
      have hle : e.depthSearched ≤ n := h3 _ (ttGet_mem he)
      omega
    have hpp := probe_none_of_depth A.2.2.tt (G.fen A.2.1.cur) (n + 1)
      Score.ninf Score.pinf hmiss
    have hlegA : G.legalMoves A.2.1.cur = [] := by rw [h2]; exact hleg
    unfold moveStep
    split
    · rw [search_terminal_max G n A.2.1 .ninf .pinf A.2.2 hlegA hpp.2]
      refine ⟨h1, h2, ?_⟩
      intro kv hkv
      simp only [ttSet, List.mem_cons] at hkv
      rcases hkv with rfl | hkv
      · exact Nat.le.refl
      · have := h3 kv hkv
        omega
    · rw [search_terminal_min G n A.2.1 .ninf .pinf A.2.2 hlegA hpp.1]
      refine ⟨h1, h2, ?_⟩
      intro kv hkv
      simp only [ttSet, List.mem_cons] at hkv
      rcases hkv with rfl | hkv
      · exact Nat.le.refl
      · have := h3 kv hkv
        omega

/-- C4: when the position has no legal move at the root, `move` fails with
the defined error instead of returning a move, for every `maxDepth`. -/
theorem claim_C4 (G : Game) (maxDepth : Nat) (b : Board G)
    (hleg : G.legalMoves b.cur = []) :
    (MiniMax.move G maxDepth b (EngineState.fresh G)).1 =
      .error "No legal move found" := by
  simp only [MiniMax.move, (moveFold_terminal G b hleg maxDepth).1]

/-- C4 witness: the terminal game with `maxDepth = 2`. -/
theorem claim_C4_witness :
    Gterm.legalMoves bterm.cur = [] ∧
    (MiniMax.move Gterm 2 bterm (EngineState.fresh Gterm)).1 =
      .error "No legal move found" :=
  ⟨rfl, claim_C4 Gterm 2 bterm rfl⟩

/-- C2: the store rule of the code disagrees with the spec's store rule.
A maximizing root searched at depth 1 with the full window `(-inf, +inf)`
finds `bestScore = 5`, strictly inside the original window, so the spec
mandates an EXACT (0) bound; the code compares `bestScore` against the
loop-final `alpha` (and, in `__min`, against the loop-final `beta`) and
stores UPPERBOUND (+1). -/
theorem claim_C2_store_flag :
    ttGet (search GC2 1 true bGC2 .ninf .pinf (EngineState.fresh GC2)).2.2.2.tt
        (GC2.fen bGC2.cur) =
      some ⟨.fin 5, .real (0 : Nat), 1, 1⟩ ∧
    specStoreFlag .ninf .pinf (.fin 5) = 0 := by
  constructor
  · decide
  · decide

theorem ttDepthLe_mono {G : Game} {tt : List (Nat × TTEntry G)} {D D' : Nat}
    (h : D ≤ D') (hle : ttDepthLe tt D) : ttDepthLe tt D' :=
  fun kv hkv => Nat.le_trans (hle kv hkv) h

/-- A depth-1 search from fresh tables on a position with a single legal
move returns that move. -/
theorem search_depth1_single (G : Game) (b : Board G) (m : G.Move) (mx : Bool)
    (hleg : G.legalMoves b.cur = [m]) :
    (search G 1 mx b .ninf .pinf (EngineState.fresh G)).2.1 =
      some (.real m) := by
  have hget : ∀ k, ttGet (EngineState.fresh G).tt k = none := fun _ => rfl
  rw [search]
  cases mx
  · simp only [Bool.false_eq_true, if_false,
      tt_probe_min_none _ _ _ _ _ (hget _),
      order_moves_singleton G _ b 1 m hleg, minLoop]
    rw [search]
    simp only [tt_probe_max_none _ _ _ _ _ (hget _)]
    simp [minLoop, min_le_right, Score.le_ninf_iff, min_eq_right]
  · simp only [if_true, tt_probe_max_none _ _ _ _ _ (hget _),
      order_moves_singleton G _ b 1 m hleg, maxLoop]
    rw [search]
    simp only [tt_probe_min_none _ _ _ _ _ (hget _)]
    simp [maxLoop, le_max_right, Score.pinf_le_iff, max_eq_right]

/-- The driver on a position with exactly one legal move: after the first
iteration the kept move is that move, and it is never replaced by anything
else. -/
theorem moveFold_single (G : Game) (b : Board G) (m : G.Move)
    (hleg : G.legalMoves b.cur = [m]) : ∀ n : Nat, 1 ≤ n →
    (moveFold G n b (EngineState.fresh G)).1 = some (.real m) ∧
    (moveFold G n b (EngineState.fresh G)).2.1 = b ∧
    ttDepthLe (moveFold G n b (EngineState.fresh G)).2.2.tt n := by
  intro n
  induction n with
  | zero => intro h; omega
  | succ n ih =>
    intro _
    rcases Nat.eq_zero_or_pos n with rfl | hn
    · unfold moveFold
      rw [show List.range' 1 1 = [1] from rfl, List.foldl_cons, List.foldl_nil]
      simp only [moveStep]
      by_cases ht : G.turn b.cur = true
      · rw [if_pos ht, search_depth1_single G b m true hleg]
        exact ⟨rfl, search_board _ _ _ _ _ _ _,
          search_ttDepthLe G 1 true b .ninf .pinf _ 1 Nat.le.refl
            (fun kv hkv => by cases hkv)⟩
      · rw [if_neg ht, search_depth1_single G b m false hleg]
        exact ⟨rfl, search_board _ _ _ _ _ _ _,
          search_ttDepthLe G 1 false b .ninf .pinf _ 1 Nat.le.refl
            (fun kv hkv => by cases hkv)⟩
    · obtain ⟨h1, h2, h3⟩ := ih hn
      unfold moveFold at h1 h2 h3 ⊢
      rw [List.range'_concat, List.foldl_append, List.foldl_cons,
        List.foldl_nil, show 1 + 1 * n = n + 1 by omega]
      set A := (List.range' 1 n).foldl (moveStep G)
        (none, b, EngineState.fresh G) with hA
      have hmiss : ∀ e, ttGet A.2.2.tt (G.fen A.2.1.cur) = some e →
          e.depthSearched < n + 1 := by
        intro e he
        have hle : e.depthSearched ≤ n := h3 _ (ttGet_mem he)
        omega
      have hpp := probe_none_of_depth A.2.2.tt (G.fen A.2.1.cur) (n + 1)
        Score.ninf Score.pinf hmiss
      have hlegA : G.legalMoves A.2.1.cur = [m] := by rw [h2]; exact hleg
      have hdep : ttDepthLe A.2.2.tt (n + 1) :=
        ttDepthLe_mono (Nat.le_succ n) h3
      unfold moveStep
      split
      · refine ⟨?_, by rw [search_board]; exact h2, ?_⟩
        · rcases search_move_mem G (n + 1) true A.2.1 .ninf .pinf A.2.2
            (by simpa using hpp.2) with h | ⟨m', hm', h⟩
          · simp only [h]; exact h1
          · rw [hlegA] at hm'
            rcases List.mem_singleton.1 hm' with rfl
            simp only [h]
        · exact search_ttDepthLe G (n + 1) true A.2.1 .ninf .pinf A.2.2
            (n + 1) Nat.le.refl hdep
      · refine ⟨?_, by rw [search_board]; exact h2, ?_⟩
        · rcases search_move_mem G (n + 1) false A.2.1 .ninf .pinf A.2.2
            (by simpa using hpp.1) with h | ⟨m', hm', h⟩
          · simp only [h]; exact h1
          · rw [hlegA] at hm'
            rcases List.mem_singleton.1 hm' with rfl
            simp only [h]
        · exact search_ttDepthLe G (n + 1) false A.2.1 .ninf .pinf A.2.2
            (n + 1) Nat.le.refl hdep

/-- C5: on a position with exactly one legal move, `move` returns that
move for every `maxDepth ≥ 1` (fresh engine). -/
theorem claim_C5 (G : Game) (maxDepth : Nat) (b : Board G) (m : G.Move)
    (hleg : G.legalMoves b.cur = [m]) (hmd : 1 ≤ maxDepth) :
    (MiniMax.move G maxDepth b (EngineState.fresh G)).1 = .ok (.real m) := by
  simp only [MiniMax.move, (moveFold_single G b m hleg maxDepth hmd).1]

/-- C5 witness: the one-move game `GC2` at `maxDepth = 2`. -/
theorem claim_C5_witness :
    GC2.legalMoves bGC2.cur = [(0 : Nat)] ∧ 1 ≤ 2 ∧
    (MiniMax.move GC2 2 bGC2 (EngineState.fresh GC2)).1 =
      .ok (.real (0 : Nat)) :=
  ⟨rfl, by omega, claim_C5 GC2 2 bGC2 (0 : Nat) rfl (by omega)⟩

/-- C10: the driver's iterative deepening runs on a copy of the caller's
board and restores it between iterations: the board threaded through the
loop is unchanged, so the caller's position, move stack and side to move
are identical before and after `move`. -/
theorem claim_C10 (G : Game) (maxDepth : Nat) (b : Board G)
    (st : EngineState G) : (moveFold G maxDepth b st).2.1 = b := by
  unfold moveFold
  have : ∀ (ds : List Nat) (acc : Option (PyMove G) × Board G × EngineState G),
      (ds.foldl (moveStep G) acc).2.1 = acc.2.1 := by
    intro ds
    induction ds with
    | nil => intro acc; rfl
    | cons dd ds ih =>
      intro acc
      rw [List.foldl_cons, ih]
      unfold moveStep
      split <;> exact search_board _ _ _ _ _ _ _
  exact this _ _

/-! ### Keys of the search tree, and how a search grows the table -/

theorem treeKeys_succ (G : Game) (d : Nat) (p : G.Pos) :
    treeKeys G (d + 1) p =
      G.fen p :: (G.legalMoves p).flatMap (fun m => treeKeys G d (G.apply p m)) := by
  simp [treeKeys, treePositions, List.map_flatMap]

theorem ttGet_set {G : Game} (tt : List (Nat × TTEntry G)) (key k : Nat)
    (e : TTEntry G) :
    ttGet (ttSet tt key e) k = if key = k then some e else ttGet tt k := by
  unfold ttGet ttSet
  rcases h : (key == k) with _ | _ <;>
    simp [List.find?_cons, h] <;> simp at h <;> simp [h]

theorem minLoop_dom (G : Game) (d : Nat)
    (rec : Board G → Score → Score → EngineState G → SearchRes G) (depth : Nat)
    (hrecB : ∀ b' a' b'' st', (rec b' a' b'' st').2.2.1 = b')
    (hrecD : ∀ b' a' b'' st' k,
      ttGet ((rec b' a' b'' st').2.2.2.tt) k ≠ none →
      ttGet st'.tt k ≠ none ∨ k ∈ treeKeys G d b'.cur) :
    ∀ (ms : List G.Move) (b : Board G) (alpha beta best : Score)
      (bm : Option G.Move) (st : EngineState G) (k : Nat),
      ttGet ((minLoop G rec depth ms b alpha beta best bm st).st.tt) k ≠ none →
      ttGet st.tt k ≠ none ∨
        k ∈ ms.flatMap (fun m => treeKeys G d (G.apply b.cur m)) := by
  intro ms
  induction ms with
  | nil => intro b alpha beta best bm st k h; exact Or.inl h
  | cons m ms ih =>
    intro b alpha beta best bm st k h
    rw [minLoop] at h
    simp only [hrecB, Board.pop_push] at h
    rw [List.flatMap_cons]
    split at h <;> split at h
    · rcases hrecD (b.push m) alpha beta st k h with h' | h'
      · exact Or.inl h'
      · rw [Board.cur_push] at h'
        exact Or.inr (List.mem_append_left _ h')
    · rcases ih _ _ _ _ _ _ _ h with h' | h'
      · rcases hrecD (b.push m) alpha beta st k h' with h'' | h''
        · exact Or.inl h''
        · rw [Board.cur_push] at h''
          exact Or.inr (List.mem_append_left _ h'')
      · exact Or.inr (List.mem_append_right _ h')
    · rcases hrecD (b.push m) alpha beta st k h with h' | h'
      · exact Or.inl h'
      · rw [Board.cur_push] at h'
        exact Or.inr (List.mem_append_left _ h')
    · rcases ih _ _ _ _ _ _ _ h with h' | h'
      · rcases hrecD (b.push m) alpha beta st k h' with h'' | h''
        · exact Or.inl h''
        · rw [Board.cur_push] at h''
          exact Or.inr (List.mem_append_left _ h'')
      · exact Or.inr (List.mem_append_right _ h')

theorem maxLoop_dom (G : Game) (d : Nat)
    (rec : Board G → Score → Score → EngineState G → SearchRes G) (depth : Nat)
    (hrecB : ∀ b' a' b'' st', (rec b' a' b'' st').2.2.1 = b')
    (hrecD : ∀ b' a' b'' st' k,
      ttGet ((rec b' a' b'' st').2.2.2.tt) k ≠ none →
      ttGet st'.tt k ≠ none ∨ k ∈ treeKeys G d b'.cur) :
    ∀ (ms : List G.Move) (b : Board G) (alpha beta best : Score)
      (bm : Option G.Move) (st : EngineState G) (k : Nat),
      ttGet ((maxLoop G rec depth ms b alpha beta best bm st).st.tt) k ≠ none →
      ttGet st.tt k ≠ none ∨
        k ∈ ms.flatMap (fun m => treeKeys G d (G.apply b.cur m)) := by
  intro ms
  induction ms with
  | nil => intro b alpha beta best bm st k h; exact Or.inl h
  | cons m ms ih =>
    intro b alpha beta best bm st k h
    rw [maxLoop] at h
    simp only [hrecB, Board.pop_push] at h
    rw [List.flatMap_cons]
    split at h <;> split at h
    · rcases hrecD (b.push m) alpha beta st k h with h' | h'
      · exact Or.inl h'
      · rw [Board.cur_push] at h'
        exact Or.inr (List.mem_append_left _ h')
    · rcases ih _ _ _ _ _ _ _ h with h' | h'
      · rcases hrecD (b.push m) alpha beta st k h' with h'' | h''
        · exact Or.inl h''
        · rw [Board.cur_push] at h''
          exact Or.inr (List.mem_append_left _ h'')
      · exact Or.inr (List.mem_append_right _ h')
    · rcases hrecD (b.push m) alpha beta st k h with h' | h'
      · exact Or.inl h'
      · rw [Board.cur_push] at h'
        exact Or.inr (List.mem_append_left _ h')
    · rcases ih _ _ _ _ _ _ _ h with h' | h'
      · rcases hrecD (b.push m) alpha beta st k h' with h'' | h''
        · exact Or.inl h''
        · rw [Board.cur_push] at h''
          exact Or.inr (List.mem_append_left _ h'')
      · exact Or.inr (List.mem_append_right _ h')

theorem search_dom (G : Game) (d : Nat) :
    ∀ (mx : Bool) (b : Board G) (alpha beta : Score) (st : EngineState G)
      (k : Nat),
      ttGet ((search G d mx b alpha beta st).2.2.2.tt) k ≠ none →
      ttGet st.tt k ≠ none ∨ k ∈ treeKeys G d b.cur := by
  induction d with
  | zero =>
    intro mx b alpha beta st k h
    rw [search] at h
    split at h
    · exact Or.inl h
    · exact Or.inl h
  | succ d ih =>
    intro mx b alpha beta st k h
    rw [search] at h
    rw [treeKeys_succ]
    split at h
    · exact Or.inl h
    · have hrecB1 : ∀ b' a' b'' st',
          ((search G d false b' a' b'' st') : SearchRes G).2.2.1 = b' :=
        fun b' a' b'' st' => search_board G d false b' a' b'' st'
      have hrecB2 : ∀ b' a' b'' st',
          ((search G d true b' a' b'' st') : SearchRes G).2.2.1 = b' :=
        fun b' a' b'' st' => search_board G d true b' a' b'' st'
      split at h
      · simp only [ttGet_set] at h
        split at h
        next hk =>
          exact Or.inr (hk ▸ List.mem_cons_self _ _)
        next =>
          rcases maxLoop_dom G d _ (d + 1) hrecB1
              (fun b' a' b'' st' k' => ih false b' a' b'' st' k')
              _ _ _ _ _ _ _ _ h with h' | h'
          · exact Or.inl h'
          · refine Or.inr (List.mem_cons_of_mem _ ?_)
            exact ((order_moves_perm G st.killers b (d + 1)).flatMap_right
              (fun m => treeKeys G d (G.apply b.cur m))).mem_iff.1 h'
      · simp only [ttGet_set] at h
        split at h
        next hk =>
          exact Or.inr (hk ▸ List.mem_cons_self _ _)
        next =>
          rcases minLoop_dom G d _ (d + 1) hrecB2
              (fun b' a' b'' st' k' => ih true b' a' b'' st' k')
              _ _ _ _ _ _ _ _ h with h' | h'
          · exact Or.inl h'
          · refine Or.inr (List.mem_cons_of_mem _ ?_)
            exact ((order_moves_perm G st.killers b (d + 1)).flatMap_right
              (fun m => treeKeys G d (G.apply b.cur m))).mem_iff.1 h'

/-! ### Fail-soft correctness of the pruned search against minimax -/

theorem le_foldl_max {α : Type} [LinearOrder α] (a : α) (l : List α) :
    a ≤ l.foldl max a := by
  induction l generalizing a with
  | nil => exact le_rfl
  | cons x l ih => exact le_trans (le_max_left a x) (ih _)

theorem mem_le_foldl_max {α : Type} [LinearOrder α] {x : α} {l : List α}
    (h : x ∈ l) (a : α) : x ≤ l.foldl max a := by
  induction l generalizing a with
  | nil => cases h
  | cons y l ih =>
    rcases List.mem_cons.1 h with rfl | h'
    · exact le_trans (le_max_right a x) (le_foldl_max _ _)
    · exact ih h' _

theorem foldl_min_le {α : Type} [LinearOrder α] (a : α) (l : List α) :
    l.foldl min a ≤ a := by
  induction l generalizing a with
  | nil => exact le_rfl
  | cons x l ih => exact le_trans (ih _) (min_le_left a x)

theorem foldl_min_le_mem {α : Type} [LinearOrder α] {x : α} {l : List α}
    (h : x ∈ l) (a : α) : l.foldl min a ≤ x := by
  induction l generalizing a with
  | nil => cases h
  | cons y l ih =>
    rcases List.mem_cons.1 h with rfl | h'
    · exact le_trans (foldl_min_le (min a x) l) (min_le_right a x)
    · exact ih h' _

theorem maxLoop_failsoft (G : Game) (d : Nat)
    (rec : Board G → Score → Score → EngineState G → SearchRes G)
    (hrecB : ∀ b' a' b'' st', (rec b' a' b'' st').2.2.1 = b')
    (hrecD : ∀ b' a' b'' st' k,
      ttGet ((rec b' a' b'' st').2.2.2.tt) k ≠ none →
      ttGet st'.tt k ≠ none ∨ k ∈ treeKeys G d b'.cur)
    (hrecF : ∀ (b' : Board G) (a' b'' : Score) (st' : EngineState G),
      (treeKeys G d b'.cur).Nodup →
      (∀ q ∈ treePositions G d b'.cur, ttGet st'.tt (G.fen q) = none) →
      a' < b'' →
      failsoft a' b'' (rec b' a' b'' st').1 (minimaxScore G d false b'.cur)) :
    ∀ (ms : List G.Move) (b : Board G) (alpha0 alpha beta best vDone : Score)
      (bm : Option G.Move) (st : EngineState G) (depth : Nat),
      (ms.flatMap (fun m => treeKeys G d (G.apply b.cur m))).Nodup →
      (∀ k ∈ ms.flatMap (fun m => treeKeys G d (G.apply b.cur m)),
        ttGet st.tt k = none) →
      alpha < beta →
      alpha = max alpha0 best →
      vDone ≤ best →
      (alpha0 < best → best = vDone) →
      failsoft alpha0 beta
        (maxLoop G rec depth ms b alpha beta best bm st).best
        ((ms.map (fun m => minimaxScore G d false (G.apply b.cur m))).foldl
          max vDone) := by
  intro ms
  induction ms with
  | nil =>
    intro b alpha0 alpha beta best vDone bm st depth hnd hfr hab hα hv1 hv2
    refine ⟨fun _ => hv1, fun hβ => ?_, fun h1 _ => hv2 h1⟩
    exfalso
    have hba : best ≤ alpha := hα ▸ le_max_right alpha0 best
    exact absurd (lt_of_lt_of_le hab (le_trans hβ hba)) (lt_irrefl _)
  | cons m ms ih =>
    intro b alpha0 alpha beta best vDone bm st depth hnd hfr hab hα hv1 hv2
    rw [maxLoop]
    simp only [hrecB, Board.pop_push]
    rw [List.flatMap_cons] at hnd hfr
    have hnd1 : (treeKeys G d (G.apply b.cur m)).Nodup :=
      (List.nodup_append.1 hnd).1
    have hnd2 : ((ms.flatMap fun m' => treeKeys G d (G.apply b.cur m'))).Nodup :=
      (List.nodup_append.1 hnd).2.1
    have hdisj := (List.nodup_append.1 hnd).2.2
    have hfr1 : ∀ q ∈ treePositions G d (G.apply b.cur m),
        ttGet st.tt (G.fen q) = none :=
      fun q hq => hfr _ (List.mem_append_left _ (List.mem_map_of_mem _ hq))
    have hfr2 : ∀ k ∈ ms.flatMap (fun m' => treeKeys G d (G.apply b.cur m')),
        ttGet st.tt k = none :=
      fun k hk => hfr _ (List.mem_append_right _ hk)
    have hchild := hrecF (b.push m) alpha beta st
      (by rw [Board.cur_push]; exact hnd1)
      (by rw [Board.cur_push]; exact hfr1) hab
    rw [Board.cur_push] at hchild
    obtain ⟨hc1, hc2, hc3⟩ := hchild
    have hba : best ≤ alpha := hα ▸ le_max_right alpha0 best
    have hbb : best < beta := lt_of_le_of_lt hba hab
    have h0a : alpha0 ≤ alpha := hα ▸ le_max_left alpha0 best
    rw [List.map_cons, List.foldl_cons]
    have hfr' : ∀ st1 : EngineState G,
        ((rec (b.push m) alpha beta st).2.2.2 = st1) →
        ∀ k ∈ ms.flatMap (fun m' => treeKeys G d (G.apply b.cur m')),
        ttGet st1.tt k = none := by
      rintro st1 rfl k hk
      by_contra hcon
      rcases hrecD (b.push m) alpha beta st k hcon with h' | h'
      · exact absurd (hfr2 k hk) h'
      · rw [Board.cur_push] at h'
        exact hdisj h' hk
    set sc := (rec (b.push m) alpha beta st).1 with hsc
    by_cases hsb : sc > best
    · simp only [if_pos hsb]
      by_cases hcut : max alpha sc ≥ beta
      · rw [if_pos hcut]
        have hβs : beta ≤ sc := by
          rcases le_max_iff.1 hcut with h' | h'
          · exact absurd (lt_of_lt_of_le hab h') (lt_irrefl _)
          · exact h'
        refine ⟨fun h => ?_, fun _ => ?_, fun _ hlt => ?_⟩
        · exfalso
          exact absurd (lt_of_le_of_lt
            (le_trans hβs (le_trans h h0a)) hab) (lt_irrefl _)
        · exact le_trans (hc2 hβs)
            (le_trans (le_max_right vDone _) (le_foldl_max _ _))
        · exact absurd (lt_of_le_of_lt hβs hlt) (lt_irrefl _)
      · rw [if_neg hcut]
        have hab' : max alpha sc < beta := not_le.1 hcut
        have hsβ : sc < beta := lt_of_le_of_lt (le_max_right _ _) hab'
        have hvm : sc ≤ alpha ∨
            sc = minimaxScore G d false (G.apply b.cur m) := by
          by_cases hsa : sc ≤ alpha
          · exact Or.inl hsa
          · exact Or.inr (hc3 (not_le.1 hsa) hsβ)
        refine ih b alpha0 _ beta _ _ (some m) _ depth hnd2
          (hfr' _ rfl) hab' ?_ ?_ ?_
        · rw [hα, max_assoc, max_eq_right (le_of_lt hsb)]
        · refine max_le (le_trans hv1 (le_of_lt hsb)) ?_
          rcases hvm with h' | h'
          · exact hc1 h'
          · exact le_of_eq h'.symm
        · intro h0
          rcases hvm with h' | h'
          · exfalso
            rcases le_max_iff.1 (hα ▸ h') with h'' | h''
            · exact absurd (lt_of_lt_of_le h0 h'') (lt_irrefl _)
            · exact absurd (lt_of_le_of_lt h'' hsb) (lt_irrefl _)
          · rw [← h', max_eq_right (le_trans hv1 (le_of_lt hsb))]
    · simp only [if_neg hsb]
      have hsbest : sc ≤ best := not_lt.1 hsb
      have hsβ : sc < beta := lt_of_le_of_lt hsbest hbb
      have hvmb : minimaxScore G d false (G.apply b.cur m) ≤ best := by
        by_cases hsa : sc ≤ alpha
        · exact le_trans (hc1 hsa) hsbest
        · exact le_trans (le_of_eq (hc3 (not_le.1 hsa) hsβ).symm) hsbest
      simp only [max_eq_left hba, if_neg (not_le.2 hab)]
      refine ih b alpha0 alpha beta best _ bm _ depth hnd2
        (hfr' _ rfl) hab hα (max_le hv1 hvmb) ?_
      intro h0
      rw [hv2 h0]
      exact (max_eq_left (hv2 h0 ▸ hvmb)).symm

theorem minLoop_failsoft (G : Game) (d : Nat)
    (rec : Board G → Score → Score → EngineState G → SearchRes G)
    (hrecB : ∀ b' a' b'' st', (rec b' a' b'' st').2.2.1 = b')
    (hrecD : ∀ b' a' b'' st' k,
      ttGet ((rec b' a' b'' st').2.2.2.tt) k ≠ none →
      ttGet st'.tt k ≠ none ∨ k ∈ treeKeys G d b'.cur)
    (hrecF : ∀ (b' : Board G) (a' b'' : Score) (st' : EngineState G),
      (treeKeys G d b'.cur).Nodup →
      (∀ q ∈ treePositions G d b'.cur, ttGet st'.tt (G.fen q) = none) →
      a' < b'' →
      failsoft a' b'' (rec b' a' b'' st').1 (minimaxScore G d true b'.cur)) :
    ∀ (ms : List G.Move) (b : Board G) (alpha beta0 beta best vDone : Score)
      (bm : Option G.Move) (st : EngineState G) (depth : Nat),
      (ms.flatMap (fun m => treeKeys G d (G.apply b.cur m))).Nodup →
      (∀ k ∈ ms.flatMap (fun m => treeKeys G d (G.apply b.cur m)),
        ttGet st.tt k = none) →
      alpha < beta →
      beta = min beta0 best →
      best ≤ vDone →
      (best < beta0 → best = vDone) →
      failsoft alpha beta0
        (minLoop G rec depth ms b alpha beta best bm st).best
        ((ms.map (fun m => minimaxScore G d true (G.apply b.cur m))).foldl
          min vDone) := by
  intro ms
  induction ms with
  | nil =>
    intro b alpha beta0 beta best vDone bm st depth hnd hfr hab hβ hv1 hv2
    refine ⟨fun h => ?_, fun _ => hv1, fun _ h2 => hv2 h2⟩
    exfalso
    have hbb : beta ≤ best := hβ ▸ min_le_right beta0 best
    exact absurd (lt_of_lt_of_le hab (le_trans hbb h)) (lt_irrefl _)
  | cons m ms ih =>
    intro b alpha beta0 beta best vDone bm st depth hnd hfr hab hβ hv1 hv2
    rw [minLoop]
    simp only [hrecB, Board.pop_push]
    rw [List.flatMap_cons] at hnd hfr
    have hnd1 : (treeKeys G d (G.apply b.cur m)).Nodup :=
      (List.nodup_append.1 hnd).1
    have hnd2 : ((ms.flatMap fun m' => treeKeys G d (G.apply b.cur m'))).Nodup :=
      (List.nodup_append.1 hnd).2.1
    have hdisj := (List.nodup_append.1 hnd).2.2
    have hfr1 : ∀ q ∈ treePositions G d (G.apply b.cur m),
        ttGet st.tt (G.fen q) = none :=
      fun q hq => hfr _ (List.mem_append_left _ (List.mem_map_of_mem _ hq))
    have hfr2 : ∀ k ∈ ms.flatMap (fun m' => treeKeys G d (G.apply b.cur m')),
        ttGet st.tt k = none :=
      fun k hk => hfr _ (List.mem_append_right _ hk)
    have hchild := hrecF (b.push m) alpha beta st
      (by rw [Board.cur_push]; exact hnd1)
      (by rw [Board.cur_push]; exact hfr1) hab
    rw [Board.cur_push] at hchild
    obtain ⟨hc1, hc2, hc3⟩ := hchild
    have hbb : beta ≤ best := hβ ▸ min_le_right beta0 best
    have hba : alpha < best := lt_of_lt_of_le hab hbb
    have h0b : beta ≤ beta0 := hβ ▸ min_le_left beta0 best
    rw [List.map_cons, List.foldl_cons]
    have hfr' : ∀ st1 : EngineState G,
        ((rec (b.push m) alpha beta st).2.2.2 = st1) →
        ∀ k ∈ ms.flatMap (fun m' => treeKeys G d (G.apply b.cur m')),
        ttGet st1.tt k = none := by
      rintro st1 rfl k hk
      by_contra hcon
      rcases hrecD (b.push m) alpha beta st k hcon with h' | h'
      · exact absurd (hfr2 k hk) h'
      · rw [Board.cur_push] at h'
        exact hdisj h' hk
    set sc := (rec (b.push m) alpha beta st).1 with hsc
    by_cases hsb : sc < best
    · simp only [if_pos hsb]
      by_cases hcut : alpha ≥ min beta sc
      · rw [if_pos hcut]
        have hαs : sc ≤ alpha := by
          rcases min_le_iff.1 hcut with h' | h'
          · exact absurd (lt_of_lt_of_le hab h') (lt_irrefl _)
          · exact h'
        refine ⟨fun _ => ?_, fun h => ?_, fun hlt _ => ?_⟩
        · exact le_trans (foldl_min_le _ _)
            (le_trans (min_le_right vDone _) (hc1 hαs))
        · exfalso
          exact absurd (lt_of_lt_of_le
            (lt_of_le_of_lt (le_trans h hαs) hab) h0b) (lt_irrefl _)
        · exact absurd (lt_of_lt_of_le hlt hαs) (lt_irrefl _)
      · rw [if_neg hcut]
        have hab' : alpha < min beta sc := not_le.1 hcut
        have hsα : alpha < sc := lt_of_lt_of_le hab' (min_le_right _ _)
        have hvm : beta ≤ sc ∨
            sc = minimaxScore G d true (G.apply b.cur m) := by
          by_cases hsa : beta ≤ sc
          · exact Or.inl hsa
          · exact Or.inr (hc3 hsα (not_le.1 hsa))
        refine ih b alpha beta0 _ _ _ (some m) _ depth hnd2
          (hfr' _ rfl) hab' ?_ ?_ ?_
        · rw [hβ, min_assoc, min_eq_right (le_of_lt hsb)]
        · refine le_min (le_trans (le_of_lt hsb) hv1) ?_
          rcases hvm with h' | h'
          · exact hc2 h'
          · exact le_of_eq h'
        · intro h0
          rcases hvm with h' | h'
          · exfalso
            rcases min_le_iff.1 (hβ ▸ h') with h'' | h''
            · exact absurd (lt_of_le_of_lt h'' h0) (lt_irrefl _)
            · exact absurd (lt_of_le_of_lt h'' hsb) (lt_irrefl _)
          · rw [← h', min_eq_right (le_trans (le_of_lt hsb) hv1)]
    · simp only [if_neg hsb]
      have hsbest : best ≤ sc := not_lt.1 hsb
      have hsα : alpha < sc := lt_of_lt_of_le hba hsbest
      have hvmb : best ≤ minimaxScore G d true (G.apply b.cur m) := by
        by_cases hsa : beta ≤ sc
        · exact le_trans hsbest (hc2 hsa)
        · exact le_trans hsbest (le_of_eq (hc3 hsα (not_le.1 hsa)))
      simp only [min_eq_left hbb, if_neg (not_le.2 hab)]
      refine ih b alpha beta0 beta best _ bm _ depth hnd2
        (hfr' _ rfl) hab hβ (le_min hv1 hvmb) ?_
      intro h0
      rw [hv2 h0]
      exact (min_eq_left (hv2 h0 ▸ hvmb)).symm

/-- With pairwise-distinct keys in the search tree and no cached entry for
any of them, the pruned search is fail-soft correct against unpruned
minimax: below the window it returns an upper bound, above it a lower
bound, and inside it the exact minimax value. -/
theorem search_failsoft (G : Game) (d : Nat) :
    ∀ (mx : Bool) (b : Board G) (alpha beta : Score) (st : EngineState G),
      (treeKeys G d b.cur).Nodup →
      (∀ q ∈ treePositions G d b.cur, ttGet st.tt (G.fen q) = none) →
      alpha < beta →
      failsoft alpha beta (search G d mx b alpha beta st).1
        (minimaxScore G d mx b.cur) := by
  induction d with
  | zero =>
    intro mx b alpha beta st hnd hfr hab
    have hmiss : ttGet st.tt (G.fen b.cur) = none :=
      hfr b.cur (by rw [treePositions]; exact List.mem_singleton_self _)
    rw [search]
    cases mx
    · simp only [Bool.false_eq_true, if_false,
        tt_probe_min_none _ _ _ _ _ hmiss]
      exact ⟨fun _ => le_rfl, fun _ => le_rfl, fun _ _ => rfl⟩
    · simp only [if_true, tt_probe_max_none _ _ _ _ _ hmiss]
      exact ⟨fun _ => le_rfl, fun _ => le_rfl, fun _ _ => rfl⟩
  | succ d ih =>
    intro mx b alpha beta st hnd hfr hab
    have hmiss : ttGet st.tt (G.fen b.cur) = none :=
      hfr b.cur (by rw [treePositions]; exact List.mem_cons_self _ _)
    rw [treeKeys_succ] at hnd
    obtain ⟨hnotin, htailnd⟩ := List.nodup_cons.1 hnd
    have hperm := order_moves_perm G st.killers b (d + 1)
    have hfmperm := hperm.flatMap_right
      (fun m => treeKeys G d (G.apply b.cur m))
    have hndms : ((order_moves G st.killers b (d + 1)).flatMap
        (fun m => treeKeys G d (G.apply b.cur m))).Nodup :=
      (hfmperm.nodup_iff).2 htailnd
    have hfrms : ∀ k ∈ (order_moves G st.killers b (d + 1)).flatMap
        (fun m => treeKeys G d (G.apply b.cur m)), ttGet st.tt k = none := by
      intro k hk
      have hk2 : k ∈ treeKeys G (d + 1) b.cur := by
        rw [treeKeys_succ]
        exact List.mem_cons_of_mem _ ((hfmperm.mem_iff).1 hk)
      rcases List.mem_map.1 hk2 with ⟨q, hq, rfl⟩
      exact hfr q hq
    rw [search]
    cases mx
    · simp only [Bool.false_eq_true, if_false,
        tt_probe_min_none _ _ _ _ _ hmiss]
      have hloop := minLoop_failsoft G d
        (fun b' a' b'' st' => search G d true b' a' b'' st')
        (fun b' a' b'' st' => search_board G d true b' a' b'' st')
        (fun b' a' b'' st' k => search_dom G d true b' a' b'' st' k)
        (fun b' a' b'' st' hnd' hfr' hab' =>
          ih true b' a' b'' st' hnd' hfr' hab')
        (order_moves G st.killers b (d + 1)) b alpha beta beta .pinf .pinf
        none st (d + 1) hndms hfrms hab
        ((min_eq_left (Score.le_pinf beta)).symm) le_rfl (fun _ => rfl)
      have hval : ((order_moves G st.killers b (d + 1)).map
            (fun m => minimaxScore G d true (G.apply b.cur m))).foldl
            min .pinf = minimaxScore G (d + 1) false b.cur := by
        rw [minimaxScore]
        simp only [Bool.false_eq_true, if_false, Bool.not_false]
        exact (hperm.map (fun m => minimaxScore G d true
          (G.apply b.cur m))).foldl_op_eq
      rw [hval] at hloop
      exact hloop
    · simp only [if_true, tt_probe_max_none _ _ _ _ _ hmiss]
      have hloop := maxLoop_failsoft G d
        (fun b' a' b'' st' => search G d false b' a' b'' st')
        (fun b' a' b'' st' => search_board G d false b' a' b'' st')
        (fun b' a' b'' st' k => search_dom G d false b' a' b'' st' k)
        (fun b' a' b'' st' hnd' hfr' hab' =>
          ih false b' a' b'' st' hnd' hfr' hab')
        (order_moves G st.killers b (d + 1)) b alpha alpha beta .ninf .ninf
        none st (d + 1) hndms hfrms hab
        ((max_eq_left (Score.ninf_le alpha)).symm) le_rfl (fun _ => rfl)
      have hval : ((order_moves G st.killers b (d + 1)).map
            (fun m => minimaxScore G d false (G.apply b.cur m))).foldl
            max .ninf = minimaxScore G (d + 1) true b.cur := by
        rw [minimaxScore]
        simp only [if_true, Bool.not_true]
        exact (hperm.map (fun m => minimaxScore G d false
          (G.apply b.cur m))).foldl_op_eq
      rw [hval] at hloop
      exact hloop

/-- C1 counterexample: on `Gcx` at depth 3 with the full window and empty
tables, the alpha-beta search returns 50 while unpruned minimax over the
same evaluation returns 60.  The shared position 3 is first searched
under the narrow window of subtree 1 and cut off after its 50-leaf; the
stored UPPERBOUND entry (score 50) is then accepted verbatim by the probe
inside subtree 2, hiding the 80-leaf, so the root prefers subtree 1's 10
vs the (mis-scored) 50 and reports 50 instead of max(10, min(80, 60)) = 60. -/
theorem claim_C1_counterexample :
    (search Gcx 3 true bcx .ninf .pinf (EngineState.fresh Gcx)).1 = .fin 50 ∧
    minimaxScore Gcx 3 true bcx.cur = .fin 60 ∧
    (search Gcx 3 true bcx .ninf .pinf (EngineState.fresh Gcx)).1 ≠
      minimaxScore Gcx 3 true bcx.cur := by
  refine ⟨by decide, by decide, by decide⟩

/-- C1 amended: when the positions of the depth-`d` search tree have
pairwise-distinct canonical keys (no transpositions, so no probe of the
initially-unpopulated table can hit) the alpha-beta search at the full
window returns exactly the unpruned minimax score, for either role. -/
theorem claim_C1_amended (G : Game) (d : Nat) (mx : Bool) (b : Board G)
    (st : EngineState G)
    (hnd : (treeKeys G d b.cur).Nodup)
    (hfresh : ∀ q ∈ treePositions G d b.cur, ttGet st.tt (G.fen q) = none) :
    (search G d mx b .ninf .pinf st).1 = minimaxScore G d mx b.cur := by
  obtain ⟨h1, h2, h3⟩ :=
    search_failsoft G d mx b .ninf .pinf st hnd hfresh Score.ninf_lt_pinf
  by_cases hr1 : (search G d mx b .ninf .pinf st).1 ≤ .ninf
  · have hre : (search G d mx b .ninf .pinf st).1 = .ninf :=
      Score.le_ninf_iff.1 hr1
    have hv := h1 hr1
    rw [hre] at hv ⊢
    exact (Score.le_ninf_iff.1 hv).symm
  · by_cases hr2 : Score.pinf ≤ (search G d mx b .ninf .pinf st).1
    · have hre : (search G d mx b .ninf .pinf st).1 = .pinf :=
        Score.pinf_le_iff.1 hr2
      have hv : Score.pinf ≤ minimaxScore G d mx b.cur := hre ▸ h2 hr2
      rw [hre]
      exact (Score.pinf_le_iff.1 hv).symm
    · exact h3 (not_le.1 hr1) (not_le.1 hr2)

/-- C1 amended witness: the transposition-free game `GC2` at depth 1. -/
theorem claim_C1_amended_witness :
    (treeKeys GC2 1 bGC2.cur).Nodup ∧
    (search GC2 1 true bGC2 .ninf .pinf (EngineState.fresh GC2)).1 =
      minimaxScore GC2 1 true bGC2.cur :=
  ⟨by decide, claim_C1_amended GC2 1 true bGC2 (EngineState.fresh GC2)
    (by decide) (by decide)⟩

end ChessGamePy
